import Mathlib

/-!
Shallow embedding of the resume-screening core (python-api) and proofs of the
spec claims about it.

Conventions of the embedding:
* Python strings are `String`/`List Char`; scanning functions work on `List Char`.
* Python floats become `ℚ` (exact rational arithmetic); `round(x, 2)` becomes
  `round2` below.  Python's `round` uses round-half-to-even; we model it with
  Mathlib's `round` (half-up).  Every property proved here only uses
  `|round2 x - x| ≤ 1/200`, which holds for either tie-breaking rule.
* Python ints become `Int` (or `Nat` where the source guarantees naturals).
* `datetime.now().year` is passed in as an explicit `currentYear` argument.
* The regular expressions of the source are compiled by hand into deterministic
  scanners.  Each regex used by the source is backtracking-free on its domain
  (greedy sub-patterns never overlap with what may follow them), so the
  deterministic maximal-munch scanners below implement exactly the `re`
  semantics (leftmost, non-overlapping matches, scanning resumes after each
  match).  Word boundaries `\b` are tracked by carrying a Bool that records
  whether the previous character was a word character.
-/

/-! ### Character classes (`utils/text_processing.py` uses `re` classes) -/

/-- Python `\w` on the ASCII range: letters, digits, underscore. -/
def isWordChar (c : Char) : Bool :=
  c.isAlphanum || c = '_'

/-- Python `\s` on the ASCII range: space, tab, newline, carriage return,
vertical tab, form feed. -/
def pyIsSpace (c : Char) : Bool :=
  c = ' ' || c = '\t' || c = '\n' || c = '\r' || c = '\x0b' || c = '\x0c'

/-- ASCII lower-casing, as Python's `re.IGNORECASE` folds the pattern letters. -/
def lowerChar (c : Char) : Char :=
  if c.isUpper then Char.ofNat (c.toNat + 32) else c

/-- Case-insensitive literal-prefix test: the (lower-case) pattern `w` matches
the beginning of `l` up to ASCII case. -/
def ciStarts : List Char → List Char → Bool
  | [], _ => true
  | _ :: _, [] => false
  | a :: as, c :: cs => (lowerChar c = a) && ciStarts as cs

/-- Word boundary after a match: the next character (if any) is not a word
character. -/
def afterB : List Char → Bool
  | [] => true
  | c :: _ => !isWordChar c

/-- Whole-word match of the keyword `w` at the head of `l`: `w` matches
case-insensitively and is followed by a boundary.  (The boundary *before* the
match is carried by the caller.) -/
def wordMatchAt (w l : List Char) : Bool :=
  ciStarts w l && afterB (l.drop w.length)

/-! ### `remove_sensitive_info` (text_processing.py lines 74-103)

`re.compile(r'\b' + word + r'\b', IGNORECASE).sub(' ', text)` for each bias
keyword, then whitespace collapse and strip.  `subWordAux w b l` performs one
such substitution pass; `b` says whether a word boundary is open before the
current position (true at the start of the string; after a replaced word the
previous character is the keyword's last letter, so the flag becomes false). -/

def subWordAux (w : List Char) : Nat → Bool → List Char → List Char
  | _, _, [] => []
  | k + 1, _, _ :: cs => subWordAux w k false cs
  | 0, b, c :: cs =>
    if b && wordMatchAt w (c :: cs) then
      ' ' :: subWordAux w (w.length - 1) false cs
    else
      c :: subWordAux w 0 (!isWordChar c) cs

/-- One whole-word substitution pass (`pattern.sub(' ', text)`). -/
def subWord (w l : List Char) : List Char :=
  subWordAux w 0 true l

/-- Does `l` contain a whole-word, case-insensitive occurrence of `w`, given
the boundary flag `b` before the first character? -/
def hasOcc (w : List Char) : Bool → List Char → Bool
  | _, [] => false
  | b, c :: cs => (b && wordMatchAt w (c :: cs)) || hasOcc w (!isWordChar c) cs

/-- Python `re.sub(r'\s+', ' ', text)`: every maximal whitespace run becomes a
single space. -/
def collapseWsAux : Bool → List Char → List Char
  | _, [] => []
  | inRun, c :: cs =>
    if pyIsSpace c then
      if inRun then collapseWsAux true cs
      else ' ' :: collapseWsAux true cs
    else c :: collapseWsAux false cs

/-- Python `re.sub(r'\s+', ' ', text)` (the Bool marks being inside a run). -/
def collapseWs (l : List Char) : List Char :=
  collapseWsAux false l

/-- Python `str.strip()`: drop leading and trailing whitespace. -/
def stripList (l : List Char) : List Char :=
  ((l.dropWhile pyIsSpace).reverse.dropWhile pyIsSpace).reverse

/-- The `WHITESPACE_PATTERN.sub(' ', text).strip()` combination used both by
`remove_sensitive_info` and by `fix_broken_words`. -/
def cleanSpaces (l : List Char) : List Char :=
  stripList (collapseWs l)

/-- The bias keyword list of `remove_sensitive_info` (source order). -/
def biasKeywords : List String :=
  ["male", "female", "black", "white", "asian",
   "african", "hispanic", "married", "single"]

/-- `remove_sensitive_info` (text_processing.py): whole-word, case-insensitive
removal of each bias keyword (each replaced by a space, in list order),
followed by whitespace collapsing and stripping.  Empty input returns `""`
(the `if not text` guard). -/
def remove_sensitive_info (s : String) : String :=
  if s.data = [] then ""
  else ⟨cleanSpaces (biasKeywords.foldl (fun acc w => subWord w.data acc) s.data)⟩

/-! ### `fix_broken_words` (text_processing.py lines 106-134) -/

/-- Case-sensitive literal-prefix test (Python `str.find` / plain substring). -/
def litStarts : List Char → List Char → Bool
  | [], _ => true
  | _ :: _, [] => false
  | a :: as, c :: cs => (a = c) && litStarts as cs

/-- Case-insensitive literal match; returns the matched original characters
and the remaining input. -/
def ciLit : List Char → List Char → Option (List Char × List Char)
  | [], l => some ([], l)
  | _ :: _, [] => none
  | a :: as, c :: cs =>
    if lowerChar c = a then (ciLit as cs).map (fun p => (c :: p.1, p.2)) else none

/-- The `MONTH_NAMES` alternation of the source, in regex order (the pattern is
compiled with `IGNORECASE`, so the literals are stored lower-case). -/
def monthLits : List (List Char) :=
  ["jan", "feb", "mar", "apr", "may", "jun", "jul", "aug", "sep", "sept",
   "oct", "nov", "dec", "january", "february", "march", "april", "may",
   "june", "july", "august", "september", "october", "november",
   "december"].map String.data

/-- First month name (in alternation order) matching case-insensitively at the
head of the input; returns its length. -/
def tryMonthLit (cs : List Char) : Option Nat :=
  (monthLits.find? (fun m => (ciLit m cs).isSome)).map List.length

/-- Substitution `LETTER_NUMBER_PATTERN.sub(r'\1 \2', text)`: insert a space
between a letter and a following digit.  `re.sub` resumes scanning after each
two-character match. -/
def insLetNum : List Char → List Char
  | a :: b :: rest =>
    if a.isAlpha && b.isDigit then a :: ' ' :: b :: insLetNum rest
    else a :: insLetNum (b :: rest)
  | l => l

/-- Substitution `NUMBER_LETTER_PATTERN.sub(r'\1 \2', text)`. -/
def insNumLet : List Char → List Char
  | a :: b :: rest =>
    if a.isDigit && b.isAlpha then a :: ' ' :: b :: insNumLet rest
    else a :: insNumLet (b :: rest)
  | l => l

/-- Substitution `MONTH_PATTERN.sub(r'\1 \2', text)`: a space is inserted
between a word character and a glued month name.  The month's characters are
kept verbatim and not rescanned (`re.sub` resumes after the match); the `Nat`
argument counts characters still to copy from the current match. -/
def insMonthAux : Nat → List Char → List Char
  | _, [] => []
  | k + 1, c :: cs => c :: insMonthAux k cs
  | 0, c :: cs =>
    if isWordChar c then
      match tryMonthLit cs with
      | some len => c :: ' ' :: insMonthAux len cs
      | none => c :: insMonthAux 0 cs
    else c :: insMonthAux 0 cs

/-- `fix_broken_words` (text_processing.py): whitespace collapse + strip, then
the three glue-repairing substitutions. -/
def fix_broken_words (text : List Char) : List Char :=
  if text.isEmpty then []
  else
    let t1 := cleanSpaces text
    let t2 := insLetNum t1
    let t3 := insNumLet t2
    insMonthAux 0 t3

/-! ### `extract_experience` explicit mention (extraction.py lines 66-70)

Python: `re.findall(r'(\d+)\s*(?:\+|-)?\s*years?', text)`. -/

/-- Numeric value of a digit string (Python `int`). -/
def digitsVal (l : List Char) : Nat :=
  l.foldl (fun n c => 10 * n + (c.toNat - 48)) 0

/-- Match of `(\d+)\s*(?:\+|-)?\s*years?` at the head of the input; returns the
captured number and the input remaining after the match.  The greedy
sub-patterns cannot steal characters needed later (digits/sign/`year` do not
overlap with `\s*`), so maximal munch is exact. -/
def expMatchAt (l : List Char) : Option (Nat × List Char) :=
  let ds := l.takeWhile Char.isDigit
  if ds.isEmpty then none
  else
    let r1 := (l.dropWhile Char.isDigit).dropWhile pyIsSpace
    let r2 := match r1 with
      | '+' :: t => t
      | '-' :: t => t
      | _ => r1
    let r3 := r2.dropWhile pyIsSpace
    match r3 with
    | 'y' :: 'e' :: 'a' :: 'r' :: rest =>
      some (digitsVal ds, match rest with | 's' :: t => t | _ => rest)
    | _ => none

/-- Scanner for `re.findall` of the explicit-mention pattern.  The `Nat`
argument counts characters of the previous match still to be skipped, so that
scanning resumes after each match (non-overlapping matches). -/
def findExplicitAux : Nat → List Char → List Nat
  | _, [] => []
  | k + 1, _ :: cs => findExplicitAux k cs
  | 0, c :: cs =>
    match expMatchAt (c :: cs) with
    | some (n, rest) => n :: findExplicitAux ((c :: cs).length - rest.length - 1) cs
    | none => findExplicitAux 0 cs

/-- All captures of `(\d+)\s*(?:\+|-)?\s*years?` over the text, in order. -/
def findExplicit (l : List Char) : List Nat :=
  findExplicitAux 0 l

/-! ### `get_years` (extraction.py lines 83-113): the three date-range regexes -/

/-- Exactly four decimal digits at the head (the regex `\d{4}`); returns the
digit characters and the rest. -/
def grab4 : List Char → Option (List Char × List Char)
  | a :: b :: c :: d :: rest =>
    if a.isDigit && b.isDigit && c.isDigit && d.isDigit then
      some ([a, b, c, d], rest)
    else none
  | _ => none

/-- Character class `[-to]` of patterns 1 and 3 (with `IGNORECASE`). -/
def dashToCls : List Char := ['-', 't', 'o', 'T', 'O']

/-- Character class `[-â€“to]` of pattern 2 (the mojibake en-dash bytes appear
verbatim in the source), with `IGNORECASE`. -/
def cls2 : List Char := ['-', 'â', '€', '“', 't', 'o', 'Â', 'T', 'O']

/-- The `\s*[-to]+\s*` separator (class given by `cls`): returns the rest of
the input and whether the character immediately before the rest is a word
character (needed for the `\b` at the start of the second capture group).
Returns `none` if the mandatory `[...]+` run is absent. -/
def eatSep (cls : List Char) (l : List Char) : Option (Bool × List Char) :=
  let sp1 := l.dropWhile pyIsSpace
  let run := sp1.takeWhile (cls.contains ·)
  if run.isEmpty then none
  else
    let r2 := sp1.dropWhile (cls.contains ·)
    let sp2 := r2.takeWhile pyIsSpace
    let r3 := r2.dropWhile pyIsSpace
    let preW := sp2.isEmpty && (match run.getLast? with
      | some x => isWordChar x
      | none => false)
    some (preW, r3)

/-- The `\bcurrent\b` / `\bpresent\b` alternatives ending patterns 1-3;
`preW` is the word-ness of the previous character. -/
def cpAlt (preW : Bool) (l : List Char) : Option (List Char × List Char) :=
  if preW then none
  else
    match ciLit "current".data l with
    | some (m, rest) => if afterB rest then some (m, rest) else none
    | none =>
      match ciLit "present".data l with
      | some (m, rest) => if afterB rest then some (m, rest) else none
      | none => none

/-- Pattern 1: `(\b\d{4}\b)\s*[-to]+\s*(\b\d{4}\b|\bcurrent\b|\bpresent\b)`
matched at the head of `l`; `prevW` is the word-ness of the preceding
character.  Returns the two captures and the remaining input. -/
def p1At (prevW : Bool) (l : List Char) : Option ((List Char × List Char) × List Char) :=
  if prevW then none
  else
    match grab4 l with
    | none => none
    | some (sd, rest0) =>
      if !afterB rest0 then none
      else
        match eatSep dashToCls rest0 with
        | none => none
        | some (preW, r3) =>
          match grab4 r3 with
          | some (ed, rest1) =>
            if !preW && afterB rest1 then some ((sd, ed), rest1) else none
          | none => cpAlt preW r3 |>.map (fun p => ((sd, p.1), p.2))

/-- Pattern 2 second group: `\d{2}/\d{2}/\d{4}`, else `\d{2}/\d{4}`, else the
current/present alternatives (alternation order of the source). -/
def p2End (preW : Bool) (l : List Char) : Option (List Char × List Char) :=
  match l with
  | a :: b :: '/' :: c :: d :: '/' :: e :: f :: g :: h :: rest =>
    if a.isDigit && b.isDigit && c.isDigit && d.isDigit && e.isDigit &&
       f.isDigit && g.isDigit && h.isDigit then
      some ([a, b, '/', c, d, '/', e, f, g, h], rest)
    else
      match l with
      | a :: b :: '/' :: c :: d :: e :: f :: rest =>
        if a.isDigit && b.isDigit && c.isDigit && d.isDigit && e.isDigit && f.isDigit then
          some ([a, b, '/', c, d, e, f], rest)
        else cpAlt preW l
      | _ => cpAlt preW l
  | a :: b :: '/' :: c :: d :: e :: f :: rest =>
    if a.isDigit && b.isDigit && c.isDigit && d.isDigit && e.isDigit && f.isDigit then
      some ([a, b, '/', c, d, e, f], rest)
    else cpAlt preW l
  | _ => cpAlt preW l

/-- Pattern 2: `(\d{2}/\d{4})\s*[-â€“to]+\s*(...)`.  The start has no word
boundary, so no `prevW` argument. -/
def p2At (l : List Char) : Option ((List Char × List Char) × List Char) :=
  match l with
  | a :: b :: '/' :: d1 :: d2 :: d3 :: d4 :: rest0 =>
    if a.isDigit && b.isDigit && d1.isDigit && d2.isDigit && d3.isDigit && d4.isDigit then
      match eatSep cls2 rest0 with
      | none => none
      | some (preW, r3) =>
        (p2End preW r3).map (fun p => (([a, b, '/', d1, d2, d3, d4], p.1), p.2))
    else none
  | _ => none

/-- A month name followed by `\s+\d{4}` (the repeated group of pattern 3).
At a given position at most one alternation branch can complete (a longer
month name continues with a letter where the shorter one would need the
mandatory whitespace), so taking the first completing name is exact.  Returns
the matched capture text and the rest. -/
def tryMonthStart (l : List Char) : Option (List Char × List Char) :=
  match monthLits.find? (fun m =>
      match ciLit m l with
      | some (_, r) => !(r.takeWhile pyIsSpace).isEmpty
      | none => false) with
  | none => none
  | some m =>
    match ciLit m l with
    | none => none
    | some (mc, r) =>
      let sp := r.takeWhile pyIsSpace
      let r2 := r.dropWhile pyIsSpace
      match grab4 r2 with
      | some (yd, rest) => some (mc ++ sp ++ yd, rest)
      | none => none

/-- Pattern 3: `(\bMONTH\s+\d{4})\s*[-to]+\s*(\bMONTH\s+\d{4}|\bcurrent\b|\bpresent\b)`. -/
def p3At (prevW : Bool) (l : List Char) : Option ((List Char × List Char) × List Char) :=
  if prevW then none
  else
    match tryMonthStart l with
    | none => none
    | some (cap1, rest0) =>
      match eatSep dashToCls rest0 with
      | none => none
      | some (preW, r3) =>
        if preW then none
        else
          match tryMonthStart r3 with
          | some (cap2, rest1) => some ((cap1, cap2), rest1)
          | none => cpAlt preW r3 |>.map (fun p => ((cap1, p.1), p.2))

/-- Generic `re.findall` scanner for the three date-range patterns: `mAt` is
the single-position matcher, the `Nat` skips the remainder of the previous
match, and the `Bool` is the word-ness of the previous character (for `\b`). -/
def findPatAux (mAt : Bool → List Char → Option ((List Char × List Char) × List Char)) :
    Nat → Bool → List Char → List (List Char × List Char)
  | _, _, [] => []
  | k + 1, _, c :: cs => findPatAux mAt k (isWordChar c) cs
  | 0, prevW, c :: cs =>
    match mAt prevW (c :: cs) with
    | some (caps, rest) =>
      caps :: findPatAux mAt ((c :: cs).length - rest.length - 1) (isWordChar c) cs
    | none => findPatAux mAt 0 (isWordChar c) cs

/-- Python `re.search(r'\d{4}', s)` followed by `int(...)`: value of the first
run of four consecutive digits. -/
def find4run : List Char → Option Nat
  | [] => none
  | a :: rest =>
    match rest with
    | b :: c :: d :: _ =>
      if a.isDigit && b.isDigit && c.isDigit && d.isDigit then
        some (digitsVal [a, b, c, d])
      else find4run rest
    | _ => none

/-- Python `re.search(r'current|present', s, IGNORECASE)` as a Boolean. -/
def hasCP : List Char → Bool
  | [] => false
  | c :: cs =>
    (ciLit "current".data (c :: cs)).isSome || (ciLit "present".data (c :: cs)).isSome || hasCP cs

/-- The body of `get_years`'s per-match loop: parse the first 4-digit run of
each capture (`current`/`present` resolve to `currentYear`), keep the pair if
`start_year <= end_year`, silently skip on any parse failure (the
`try`/`except` of the source). -/
def parseCap (currentYear : Int) (c : List Char × List Char) : Option (Int × Int) :=
  match find4run c.1 with
  | none => none
  | some sy =>
    let ey : Option Int :=
      if hasCP c.2 then some currentYear else (find4run c.2).map Int.ofNat
    match ey with
    | none => none
    | some e => if (sy : Int) ≤ e then some ((sy : Int), e) else none

/-- `get_years` (extraction.py): all date ranges of the three patterns, in
pattern order. -/
def get_years (currentYear : Int) (text : List Char) : List (Int × Int) :=
  (findPatAux p1At 0 false text).filterMap (parseCap currentYear)
    ++ (findPatAux (fun _ l => p2At l) 0 false text).filterMap (parseCap currentYear)
    ++ (findPatAux p3At 0 false text).filterMap (parseCap currentYear)

/-! ### `get_education_text` (extraction.py lines 140-164) -/

/-- Python `text.find(pat)` (first occurrence, as an index), `None` when
absent. -/
def findSub (pat : List Char) : List Char → Option Nat
  | [] => if litStarts pat [] then some 0 else none
  | c :: cs =>
    if litStarts pat (c :: cs) then some 0 else (findSub pat cs).map (· + 1)

/-- Start of the last occurrence of `pat` ("education" has no self-overlap, so
the last `finditer` match is the last occurrence). -/
def lastSub (pat : List Char) : List Char → Option Nat
  | [] => if litStarts pat [] then some 0 else none
  | c :: cs =>
    match lastSub pat cs with
    | some j => some (j + 1)
    | none => if litStarts pat (c :: cs) then some 0 else none

/-- Python `re.search(r'work|experience', s)`: index of the first position
where either literal matches. -/
def findWE : List Char → Option Nat
  | [] => none
  | c :: cs =>
    if litStarts "work".data (c :: cs) || litStarts "experience".data (c :: cs) then some 0
    else (findWE cs).map (· + 1)

/-- `get_education_text` (extraction.py): fix broken words, slice from the
first "education" to the next "work"/"experience"; with no such marker, fall
back to the last "education" occurrence.  (The source computes the
work-marker search before testing `edu_index != -1`, but only uses it inside
that branch, so the pure model evaluates it there.)  The final `none` arm is
unreachable (`find` succeeded, so `finditer` is non-empty). -/
def get_education_text (text : List Char) : List Char :=
  let t := fix_broken_words text
  match findSub "education".data t with
  | none => []
  | some i =>
    let suffix := t.drop i
    match findWE suffix with
    | some j => suffix.take j
    | none =>
      match lastSub "education".data t with
      | some li => if i ≠ li then t.drop li else t.drop i
      | none => t.drop i

/-! ### `extract_num_years` (extraction.py lines 116-137) -/

/-- Python's tuple ordering, for `years.sort()`. -/
def lexLe (a b : Int × Int) : Prop :=
  a.1 < b.1 ∨ (a.1 = b.1 ∧ a.2 ≤ b.2)

instance : DecidableRel lexLe := fun a b => by unfold lexLe; infer_instance

/-- The merge loop of `extract_num_years`: `cs, ce` is the current merged
range, overlapping-or-touching ranges (`start <= current_end`) extend it, a
gap emits it and starts a new one. -/
def mergeLoop (cs ce : Int) : List (Int × Int) → List (Int × Int)
  | [] => [(cs, ce)]
  | (s, e) :: rest =>
    if s ≤ ce then mergeLoop cs (max ce e) rest
    else (cs, ce) :: mergeLoop s e rest

/-- `extract_num_years` (extraction.py): sort the ranges, merge overlapping or
touching ones, and sum `end - start` over the merged segments.  (Python's
stable `list.sort` on a total antisymmetric order is any sorting algorithm;
insertion sort is used here.) -/
def extract_num_years (years : List (Int × Int)) : Int :=
  match List.insertionSort lexLe years with
  | [] => 0
  | (cs, ce) :: rest => ((mergeLoop cs ce rest).map (fun p => p.2 - p.1)).sum

/-- `extract_experience` (extraction.py): the maximum explicitly mentioned
year count if any, otherwise date-range inference with education ranges
filtered out.  `datetime.now().year` is the `currentYear` argument. -/
def extract_experience (currentYear : Int) (text : List Char) : Int :=
  match findExplicit text with
  | n :: ns => Int.ofNat (ns.foldl max n)
  | [] =>
    let education_years := get_years currentYear (get_education_text text)
    let years_range := get_years currentYear text
    let filtered := years_range.filter (fun y => !(decide (y ∈ education_years)))
    extract_num_years filtered

/-! ### Configuration (`config/scoring_config.py`), with the source's default
environment values. -/

structure ScoringWeights where
  general : ℚ
  skills : ℚ
  experience : ℚ
  education : ℚ

/-- Default `SCORING_WEIGHTS` (env defaults 0.10/0.40/0.30/0.20). -/
def SCORING_WEIGHTS : ScoringWeights :=
  { general := 0.10, skills := 0.40, experience := 0.30, education := 0.20 }

/-- Python `sum(SCORING_WEIGHTS.values())` in dict insertion order. -/
def sumWeights (w : ScoringWeights) : ℚ :=
  w.general + w.skills + w.experience + w.education

structure Thresholds where
  skills : ℚ
  experience : ℚ
  education : ℚ
  general : ℚ

/-- The per-category `strong` cutoffs of `THRESHOLDS`. -/
def THRESHOLDS : Thresholds :=
  { skills := 30, experience := 20, education := 12, general := 7 }

structure ExperienceConfig where
  max_scaling_factor : ℚ
  no_requirement_score : ℚ

/-- Default `EXPERIENCE_CONFIG` (env default `EXP_MAX_SCALING=1.5`;
`no_requirement_score` is hardcoded `1.0`). -/
def EXPERIENCE_CONFIG : ExperienceConfig :=
  { max_scaling_factor := 1.5, no_requirement_score := 1.0 }

/-- Default `DEGREE_BOOST`. -/
def DEGREE_EQUIVALENTS_BOOST : ℚ := 0.5

/-- `validate_weights` (scoring_config.py lines 45-52): raises `ValueError`
unless the weights sum to 1.0 within 0.01.  The raise is modelled as
`Except.error`. -/
def validate_weights (w : ScoringWeights) : Except String Unit :=
  let total := sumWeights w
  if |total - 1.0| > 0.01 then
    Except.error s!"Scoring weights must sum to 1.0, got {total}"
  else Except.ok ()

/-! ### Similarity (`utils/similarity.py`)

The embedding backend (`calculator.compute_similarity`, a BERT model) is an
external collaborator; it enters as an abstract argument
`sim : String → String → ℚ`. -/

/-- `degree_equivalents` (utils/skill_edu.py), in dict insertion order. -/
def degree_equivalents : List (String × List String) :=
  [("Computer Science", ["Computer Engineering", "Software Engineering", "Information Systems"]),
   ("Software Engineering", ["Computer Science", "Information Technology"]),
   ("IT", ["Information Technology", "Network Security"])]

/-- `compute_similarity` (utils/similarity.py): delegates to the calculator. -/
def compute_similarity (sim : String → String → ℚ) (t1 t2 : String) : ℚ :=
  sim t1 t2

/-- `qualification_similarity` (utils/similarity.py lines 22-42): base
similarity plus one `DEGREE_EQUIVALENTS_BOOST` for every comma-space-separated
resume token that is listed among the equivalents of a canonical degree
occurring as a substring of the job text; the result is clamped by
`min(score, 1.0)`. -/
def qualification_similarity (sim : String → String → ℚ)
    (resume_qualification job_qualification : String) : ℚ :=
  let score := sim resume_qualification job_qualification
  let boosted := (resume_qualification.splitOn ", ").foldl (fun sc degree =>
    degree_equivalents.foldl (fun sc' kv =>
      if kv.2.contains degree && (findSub kv.1.data job_qualification.data).isSome then
        sc' + DEGREE_EQUIVALENTS_BOOST
      else sc') sc) score
  min boosted 1.0

/-! ### Scoring (`utils/scoring.py`) -/

/-- Python `round(x, 2)` over `ℚ` (see the header note on tie-breaking). -/
def round2 (q : ℚ) : ℚ :=
  (round (q * 100) : ℚ) / 100

/-- `compute_experience_score` (scoring.py lines 62-88). -/
def compute_experience_score (currentYear : Int) (resume_years : ℚ)
    (job_exp : String) (similarity_score : ℚ) : ℚ :=
  let job_years := extract_experience currentYear job_exp.data
  let num_experience_score :=
    if job_years = 0 then EXPERIENCE_CONFIG.no_requirement_score
    else min (resume_years / (job_years : ℚ)) EXPERIENCE_CONFIG.max_scaling_factor
  num_experience_score * similarity_score

/-- The `ranking_data` dictionary fields used by `get_resume_ranking_score`. -/
structure RankingData where
  resume_text : String
  r_skills : String
  experience : ℚ
  education : String

/-- The `job_data` dictionary fields used by `get_resume_ranking_score`. -/
structure JobData where
  description : String
  skills : String
  experience : String
  education : String

/-- The score-breakdown dictionary `{ts, ss, ex, ed, ge}`. -/
structure ScoreBreakdown where
  ts : ℚ
  ss : ℚ
  ex : ℚ
  ed : ℚ
  ge : ℚ

/-- Unrounded `general_score` of `get_resume_ranking_score`. -/
def general_score (sim : String → String → ℚ) (rd : RankingData) (jd : JobData) : ℚ :=
  compute_similarity sim rd.resume_text jd.description * SCORING_WEIGHTS.general * 100

/-- Unrounded `skills_score` of `get_resume_ranking_score`. -/
def skills_score (sim : String → String → ℚ) (rd : RankingData) (jd : JobData) : ℚ :=
  compute_similarity sim rd.r_skills jd.skills * SCORING_WEIGHTS.skills * 100

/-- Unrounded `experience_score` of `get_resume_ranking_score`. -/
def experience_score (sim : String → String → ℚ) (currentYear : Int)
    (rd : RankingData) (jd : JobData) : ℚ :=
  compute_experience_score currentYear rd.experience jd.experience
    (compute_similarity sim rd.resume_text jd.experience) * SCORING_WEIGHTS.experience * 100

/-- Unrounded `education_score` of `get_resume_ranking_score`. -/
def education_score (sim : String → String → ℚ) (rd : RankingData) (jd : JobData) : ℚ :=
  qualification_similarity sim rd.education jd.education * SCORING_WEIGHTS.education * 100

/-- `get_resume_ranking_score` (scoring.py lines 10-59): the four weighted
sub-scores, their sum as the total, each rounded to two decimals. -/
def get_resume_ranking_score (sim : String → String → ℚ) (currentYear : Int)
    (rd : RankingData) (jd : JobData) : ScoreBreakdown :=
  let total_score := skills_score sim rd jd + experience_score sim currentYear rd jd
    + education_score sim rd jd + general_score sim rd jd
  { ts := round2 total_score
    ss := round2 (skills_score sim rd jd)
    ex := round2 (experience_score sim currentYear rd jd)
    ed := round2 (education_score sim rd jd)
    ge := round2 (general_score sim rd jd) }

/-- `generate_explanation` (scoring.py lines 91-128): strict `>` against each
`strong` threshold, four sentences joined by single spaces. -/
def generate_explanation (scores : ScoreBreakdown) : String :=
  String.intercalate " "
    [(if scores.ss > THRESHOLDS.skills then "SS: strong skill."
      else "SS: lacks some required skills."),
     (if scores.ex > THRESHOLDS.experience then "EX: relevant work experience."
      else "EX: less experience."),
     (if scores.ed > THRESHOLDS.education then "ED: meets the required qualifications."
      else "ED: does not fully meet the qualifications."),
     (if scores.ge > THRESHOLDS.general then "GS: aligns well."
      else "GS: does not strongly align.")]

/-! ### Batch ranking (`app.py` line 306)

`ranked_resumes.sort(key=lambda x: x.get("ts", 0), reverse=True)` — Python's
`list.sort` is stable, and a stable sort is extensionally unique, so insertion
sort with the non-strict descending relation is an exact model. -/

/-- One entry of the ranked result list (only the fields the sort reads,
plus the filename as identity of the record). -/
structure ResumeResult where
  filename : String
  ts : ℚ

/-- Descending-by-total comparison used by the sort key. -/
def tsGe (a b : ResumeResult) : Prop := b.ts ≤ a.ts

instance : DecidableRel tsGe := fun a b => by unfold tsGe; infer_instance

/-- The sort step of the `/predictbert` endpoint. -/
def rankResumes (l : List ResumeResult) : List ResumeResult :=
  List.insertionSort tsGe l

/-! ### Auxiliary definitions used by the claim statements -/

/-- Least start year of a (non-empty) range list (0 for the empty list). -/
def minStartOf : List (Int × Int) → Int
  | [] => 0
  | p :: ps => ps.foldl (fun m q => min m q.1) p.1

/-- Greatest end year of a (non-empty) range list (0 for the empty list). -/
def maxEndOf : List (Int × Int) → Int
  | [] => 0
  | p :: ps => ps.foldl (fun m q => max m q.2) p.2

instance : IsTotal (Int × Int) lexLe := by
  constructor
  intro a b
  rcases lt_trichotomy a.1 b.1 with h | h | h
  · exact Or.inl (Or.inl h)
  · rcases le_total a.2 b.2 with h2 | h2
    · exact Or.inl (Or.inr ⟨h, h2⟩)
    · exact Or.inr (Or.inr ⟨h.symm, h2⟩)
  · exact Or.inr (Or.inl h)

instance : IsTrans (Int × Int) lexLe := by
  constructor
  intro a b c hab hbc
  rcases hab with h1 | ⟨h1, h1'⟩ <;> rcases hbc with h2 | ⟨h2, h2'⟩
  · exact Or.inl (h1.trans h2)
  · exact Or.inl (h2 ▸ h1)
  · exact Or.inl (h1 ▸ h2)
  · exact Or.inr ⟨h1.trans h2, h1'.trans h2'⟩

instance : IsTotal ResumeResult tsGe := by
  constructor
  intro a b
  exact le_total b.ts a.ts

instance : IsTrans ResumeResult tsGe := by
  constructor
  intro a b c hab hbc
  exact le_trans hbc hab


/-- Keyword shape used by `remove_sensitive_info`: non-empty, all lower-case
letters. -/
def KW (w : List Char) : Prop :=
  w ≠ [] ∧ ∀ a ∈ w, a.isLower = true

/-- Head is absent or not whitespace (collapsed output entering a run). -/
def headNS : List Char → Bool
  | [] => true
  | c :: _ => !pyIsSpace c

/-- Well-collapsed whitespace: every whitespace character is a plain space and
no two whitespace characters are adjacent. -/
def spacedOk : List Char → Bool
  | [] => true
  | c :: cs => (if pyIsSpace c then decide (c = ' ') && headNS cs else true) && spacedOk cs

/-! ## Claim theorems -/

/-- C5: for every similarity backend and every resume/job education text,
`qualification_similarity` returns at most 1.0, no matter how many
degree-equivalence boosts of 0.5 accumulate. -/
theorem spec_C5 (sim : String → String → ℚ) (rq jq : String) :
    qualification_similarity sim rq jq ≤ 1 := by
  unfold qualification_similarity
  exact le_trans (min_le_right _ _) (by norm_num)

/-- C8: weight validation errors out iff the weight sum is farther than 0.01
from 1.0; in particular weights summing to 0.85 fail and the default
configuration (which the module validates at load time) succeeds. -/
theorem spec_C8 :
    (∀ w : ScoringWeights,
      (validate_weights w).isOk = false ↔ |sumWeights w - 1.0| > 0.01)
    ∧ (validate_weights ⟨0.10, 0.40, 0.30, 0.05⟩).isOk = false
    ∧ validate_weights SCORING_WEIGHTS = Except.ok () := by
  refine ⟨fun w => ?_, ?_, ?_⟩
  · by_cases h : |sumWeights w - 1.0| > 0.01 <;>
      simp [validate_weights, h, Except.isOk, Except.toBool]
  · have h : |sumWeights (⟨0.10, 0.40, 0.30, 0.05⟩ : ScoringWeights) - 1.0| > 0.01 := by
      have he : sumWeights (⟨0.10, 0.40, 0.30, 0.05⟩ : ScoringWeights) - 1.0 = -(3 / 20) := by
        norm_num [sumWeights]
      rw [he, abs_neg, abs_of_pos] <;> norm_num
    simp [validate_weights, h, Except.isOk, Except.toBool]
  · have h : ¬|sumWeights SCORING_WEIGHTS - 1.0| > 0.01 := by
      norm_num [sumWeights, SCORING_WEIGHTS]
    simp [validate_weights, h]

/-- C6: `generate_explanation` compares each sub-score to its `strong`
threshold with strict greater-than, so a sub-score exactly at its threshold
yields the corresponding negative sentence; the output is a deterministic
function of the scores. -/
theorem spec_C6 (sc : ScoreBreakdown) :
    ∃ s1 s2 s3 s4 : String,
      generate_explanation sc = String.intercalate " " [s1, s2, s3, s4]
      ∧ (sc.ss = THRESHOLDS.skills → s1 = "SS: lacks some required skills.")
      ∧ (sc.ex = THRESHOLDS.experience → s2 = "EX: less experience.")
      ∧ (sc.ed = THRESHOLDS.education → s3 = "ED: does not fully meet the qualifications.")
      ∧ (sc.ge = THRESHOLDS.general → s4 = "GS: does not strongly align.")
      ∧ ∀ sc' : ScoreBreakdown, sc' = sc → generate_explanation sc' = generate_explanation sc := by
  refine ⟨_, _, _, _, rfl, fun h => ?_, fun h => ?_, fun h => ?_, fun h => ?_,
    fun sc' h => by rw [h]⟩ <;>
    rw [h, if_neg (lt_irrefl _)]

/-- C6 witness: all four sub-scores exactly at their thresholds produce the
four negative sentences. -/
theorem spec_C6_witness :
    generate_explanation ⟨69, 30, 20, 12, 7⟩ =
      "SS: lacks some required skills. EX: less experience. ED: does not fully meet the qualifications. GS: does not strongly align." := by
  obtain ⟨s1, s2, s3, s4, he, h1, h2, h3, h4, _⟩ := spec_C6 ⟨69, 30, 20, 12, 7⟩
  rw [he, h1 rfl, h2 rfl, h3 rfl, h4 rfl]
  rfl

/-- C2: `compute_experience_score` returns `no_requirement_score * similarity`
(defaults: `1.0 * similarity`) when the job text yields 0 years, and
`min(resume_years / job_years, max_scaling_factor) * similarity` (default cap
1.5, not floored below) when it yields a positive count; in particular
`compute_experience_score(10, "3 years", 1.0) = 1.5`. -/
theorem spec_C2 :
    (∀ (currentYear : Int) (resume_years similarity : ℚ), 0 ≤ resume_years →
      ∀ job_exp : String,
        (extract_experience currentYear job_exp.data = 0 →
          compute_experience_score currentYear resume_years job_exp similarity
            = EXPERIENCE_CONFIG.no_requirement_score * similarity)
        ∧ (0 < extract_experience currentYear job_exp.data →
          compute_experience_score currentYear resume_years job_exp similarity
            = min (resume_years / (extract_experience currentYear job_exp.data : ℚ))
                EXPERIENCE_CONFIG.max_scaling_factor * similarity))
    ∧ ∀ currentYear : Int,
        compute_experience_score currentYear 10 "3 years" 1 = 1.5 := by
  constructor
  · intro cy ry s _ je
    constructor
    · intro h
      simp only [compute_experience_score, h, if_pos]
    · intro h
      simp only [compute_experience_score]
      rw [if_neg (by omega : ¬extract_experience cy je.data = 0)]
  · intro cy
    have h3 : extract_experience cy "3 years".data = 3 := rfl
    simp only [compute_experience_score, h3]
    rw [if_neg (by norm_num)]
    rw [min_eq_right (by norm_num [EXPERIENCE_CONFIG] : EXPERIENCE_CONFIG.max_scaling_factor ≤ (10:ℚ) / ((3:Int) : ℚ))]
    norm_num [EXPERIENCE_CONFIG]

/-- C2 witness: the capped branch at the concrete spec example. -/
theorem spec_C2_witness :
    0 ≤ (10:ℚ) ∧ 0 < extract_experience 2025 "3 years".data ∧
      compute_experience_score 2025 10 "3 years" 1
        = min ((10:ℚ) / (extract_experience 2025 "3 years".data : ℚ))
            EXPERIENCE_CONFIG.max_scaling_factor * 1 :=
  ⟨by norm_num, by decide, (spec_C2.1 2025 10 1 (by norm_num) "3 years").2 (by decide)⟩

/-- C3: whenever the explicit pattern `<integer> [+|-]? years?` matches the
raw text at least once, `extract_experience` returns the maximum matched
integer (date-range inference is not consulted); on text containing both
"5 years of experience" and a 2015-2020 range the result is 5. -/
theorem spec_C3 :
    (∀ (currentYear : Int) (t : String), findExplicit t.data ≠ [] →
      extract_experience currentYear t.data = ((findExplicit t.data).foldl max 0 : Nat))
    ∧ ∀ currentYear : Int,
        extract_experience currentYear "5 years of experience and worked 2015-2020".data = 5 := by
  constructor
  · intro cy t h
    cases hf : findExplicit t.data with
    | nil => exact absurd hf h
    | cons n ns =>
      simp only [extract_experience, hf, List.foldl_cons, Nat.zero_max]
      rfl
  · intro cy
    rfl

/-- C3 witness: explicit mention takes priority on the concrete spec text. -/
theorem spec_C3_witness :
    findExplicit "5 years of experience and worked 2015-2020".data ≠ [] ∧
      extract_experience 2025 "5 years of experience and worked 2015-2020".data
        = ((findExplicit "5 years of experience and worked 2015-2020".data).foldl max 0 : Nat) :=
  ⟨by decide, spec_C3.1 2025 "5 years of experience and worked 2015-2020" (by decide)⟩

/-- C4 counterexample: on exactly the two non-overlapping ranges "2015-2018"
and "2019-2021" (no explicit mention, no education section)
`extract_experience` does not return 6. -/
theorem spec_C4_counterexample :
    extract_experience 2025 "2015-2018 2019-2021".data ≠ 6 := by
  decide

/-- C4 (amended): on the two non-overlapping ranges "2015-2018" and
"2019-2021" `extract_experience` returns 5 = (2018-2015) + (2021-2019), the
spec's own worked arithmetic. -/
theorem spec_C4 :
    ∀ currentYear : Int,
      extract_experience currentYear "2015-2018 2019-2021".data = 5 :=
  fun _ => rfl

/-- Distance between a rational and its two-decimal rounding. -/
theorem round2_close (q : ℚ) : |round2 q - q| ≤ 1 / 200 := by
  have h := abs_sub_round (q * 100)
  have he : round2 q - q = ((round (q * 100) : ℚ) - q * 100) / 100 := by
    unfold round2; ring
  rw [he, abs_div, abs_of_pos (by norm_num : (0:ℚ) < 100)]
  rw [abs_sub_comm] at h
  linarith

/-- C1: the total is the rounding of the sum of the unrounded sub-scores, and
differs from the sum of the independently rounded sub-scores by at most
0.04. -/
theorem spec_C1 (sim : String → String → ℚ) (currentYear : Int)
    (rd : RankingData) (jd : JobData) :
    (get_resume_ranking_score sim currentYear rd jd).ts
      = round2 (skills_score sim rd jd + experience_score sim currentYear rd jd
          + education_score sim rd jd + general_score sim rd jd)
    ∧ |(get_resume_ranking_score sim currentYear rd jd).ts
        - ((get_resume_ranking_score sim currentYear rd jd).ss
          + (get_resume_ranking_score sim currentYear rd jd).ex
          + (get_resume_ranking_score sim currentYear rd jd).ed
          + (get_resume_ranking_score sim currentYear rd jd).ge)| ≤ 0.04 := by
  constructor
  · rfl
  · have h1 := round2_close (skills_score sim rd jd + experience_score sim currentYear rd jd
      + education_score sim rd jd + general_score sim rd jd)
    have h2 := round2_close (skills_score sim rd jd)
    have h3 := round2_close (experience_score sim currentYear rd jd)
    have h4 := round2_close (education_score sim rd jd)
    have h5 := round2_close (general_score sim rd jd)
    rw [abs_le] at h1 h2 h3 h4 h5
    rw [show (get_resume_ranking_score sim currentYear rd jd).ts
        = round2 (skills_score sim rd jd + experience_score sim currentYear rd jd
            + education_score sim rd jd + general_score sim rd jd) from rfl,
      show (get_resume_ranking_score sim currentYear rd jd).ss
        = round2 (skills_score sim rd jd) from rfl,
      show (get_resume_ranking_score sim currentYear rd jd).ex
        = round2 (experience_score sim currentYear rd jd) from rfl,
      show (get_resume_ranking_score sim currentYear rd jd).ed
        = round2 (education_score sim rd jd) from rfl,
      show (get_resume_ranking_score sim currentYear rd jd).ge
        = round2 (general_score sim rd jd) from rfl]
    rw [abs_le]
    constructor <;> linarith

/-- Stability core for C7: filtering an `orderedInsert` by an exact total. -/
theorem rank_filter_insert (a : ResumeResult) (l : List ResumeResult) (c : ℚ) :
    (List.orderedInsert tsGe a l).filter (fun r => decide (r.ts = c))
      = if a.ts = c then a :: l.filter (fun r => decide (r.ts = c))
        else l.filter (fun r => decide (r.ts = c)) := by
  induction l with
  | nil =>
    by_cases h : a.ts = c <;> simp [List.orderedInsert, List.filter, h]
  | cons b l ih =>
    by_cases hab : tsGe a b
    · simp only [List.orderedInsert]
      rw [if_pos hab]
      by_cases h : a.ts = c <;> simp [List.filter_cons, h]
    · have hoi : List.orderedInsert tsGe a (b :: l) = b :: List.orderedInsert tsGe a l := by
        simp [List.orderedInsert, hab]
      have hlt : a.ts < b.ts := by
        simp only [tsGe] at hab
        exact not_le.mp hab
      rw [hoi]
      by_cases h : a.ts = c
      · have hb : ¬(b.ts = c) := by
          rw [← h]
          exact ne_of_gt hlt
        simp [List.filter_cons, h, hb, ih]
      · by_cases hb : b.ts = c <;> simp [List.filter_cons, h, hb, ih]

/-- Stability for C7: equal-total records keep their input order. -/
theorem rank_filter (l : List ResumeResult) (c : ℚ) :
    (rankResumes l).filter (fun r => decide (r.ts = c))
      = l.filter (fun r => decide (r.ts = c)) := by
  induction l with
  | nil => rfl
  | cons a l ih =>
    show (List.orderedInsert tsGe a (List.insertionSort tsGe l)).filter _ = _
    rw [rank_filter_insert]
    by_cases h : a.ts = c <;> simp [List.filter_cons, h, ih, rankResumes] at *

/-- C7: the ranked result list is sorted by `ts` descending, and any two
results with equal `ts` appear in the input's relative order (stable sort,
no other tie-breaking). -/
theorem spec_C7 (l : List ResumeResult) :
    List.Sorted tsGe (rankResumes l)
    ∧ ∀ c : ℚ, (rankResumes l).filter (fun r => decide (r.ts = c))
        = l.filter (fun r => decide (r.ts = c)) :=
  ⟨List.sorted_insertionSort tsGe l, fun c => rank_filter l c⟩

/-- Lower bound of the running minimum-start fold. -/
theorem fmin_le_init (l : List (Int × Int)) : ∀ a : Int,
    l.foldl (fun m q => min m q.1) a ≤ a := by
  induction l with
  | nil => intro a; simp
  | cons p ps ih =>
    intro a
    simp only [List.foldl_cons]
    exact le_trans (ih _) (min_le_left _ _)

/-- The running minimum-start fold is below every member's start. -/
theorem fmin_le_mem (l : List (Int × Int)) : ∀ (a : Int) (p : Int × Int), p ∈ l →
    l.foldl (fun m q => min m q.1) a ≤ p.1 := by
  induction l with
  | nil => intro a p hp; cases hp
  | cons q qs ih =>
    intro a p hp
    simp only [List.foldl_cons]
    rcases List.mem_cons.mp hp with h | h
    · subst h
      exact le_trans (fmin_le_init _ _) (min_le_right _ _)
    · exact ih _ p h

/-- Upper bound of the running maximum-end fold. -/
theorem fmax_init_le (l : List (Int × Int)) : ∀ a : Int,
    a ≤ l.foldl (fun m q => max m q.2) a := by
  induction l with
  | nil => intro a; simp
  | cons p ps ih =>
    intro a
    simp only [List.foldl_cons]
    exact le_trans (le_max_left _ _) (ih _)

/-- The running maximum-end fold is above every member's end. -/
theorem fmax_mem_le (l : List (Int × Int)) : ∀ (a : Int) (p : Int × Int), p ∈ l →
    p.2 ≤ l.foldl (fun m q => max m q.2) a := by
  induction l with
  | nil => intro a p hp; cases hp
  | cons q qs ih =>
    intro a p hp
    simp only [List.foldl_cons]
    rcases List.mem_cons.mp hp with h | h
    · subst h
      exact le_trans (le_max_right _ _) (fmax_init_le _ _)
    · exact ih _ p h

/-- `minStartOf` bounds every member's start from below. -/
theorem minStartOf_le (l : List (Int × Int)) (p : Int × Int) (hp : p ∈ l) :
    minStartOf l ≤ p.1 := by
  cases l with
  | nil => cases hp
  | cons q qs =>
    rcases List.mem_cons.mp hp with h | h
    · subst h
      exact fmin_le_init qs p.1
    · exact fmin_le_mem qs q.1 p h

/-- `maxEndOf` bounds every member's end from above. -/
theorem le_maxEndOf (l : List (Int × Int)) (p : Int × Int) (hp : p ∈ l) :
    p.2 ≤ maxEndOf l := by
  cases l with
  | nil => cases hp
  | cons q qs =>
    rcases List.mem_cons.mp hp with h | h
    · subst h
      exact fmax_init_le qs p.2
    · exact fmax_mem_le qs q.2 p h

/-- Lexicographic order on year pairs implies order of the start years. -/
theorem lexLe_imp {a b : Int × Int} (h : lexLe a b) : a.1 ≤ b.1 := by
  rcases h with h | ⟨h, _⟩
  · exact le_of_lt h
  · exact le_of_eq h

/-- The merged-segment sum is non-negative for well-formed ranges. -/
theorem mergeLoop_nonneg (rest : List (Int × Int)) : ∀ cs ce : Int, cs ≤ ce →
    (∀ p ∈ rest, p.1 ≤ p.2) →
    0 ≤ ((mergeLoop cs ce rest).map (fun p => p.2 - p.1)).sum := by
  induction rest with
  | nil =>
    intro cs ce h _
    simp [mergeLoop]
    omega
  | cons p rest ih =>
    intro cs ce h hp
    obtain ⟨s, e⟩ := p
    by_cases hse : s ≤ ce
    · simp only [mergeLoop, if_pos hse]
      exact ih cs (max ce e) (le_trans h (le_max_left _ _))
        (fun q hq => hp q (List.mem_cons_of_mem _ hq))
    · simp only [mergeLoop, if_neg hse, List.map_cons, List.sum_cons]
      have h1 := ih s e (hp (s, e) (List.mem_cons_self _ _))
        (fun q hq => hp q (List.mem_cons_of_mem _ hq))
      omega

/-- The merged-segment sum is bounded by the spanned interval. -/
theorem mergeLoop_le (rest : List (Int × Int)) : ∀ cs ce M : Int, ce ≤ M →
    (∀ p ∈ rest, p.2 ≤ M) → (∀ p ∈ rest, cs ≤ p.1) →
    rest.Pairwise (fun a b => a.1 ≤ b.1) →
    ((mergeLoop cs ce rest).map (fun p => p.2 - p.1)).sum ≤ M - cs := by
  induction rest with
  | nil =>
    intro cs ce M h _ _ _
    simp [mergeLoop]
    omega
  | cons p rest ih =>
    intro cs ce M hce hend hstart hpw
    obtain ⟨s, e⟩ := p
    rw [List.pairwise_cons] at hpw
    by_cases hse : s ≤ ce
    · simp only [mergeLoop, if_pos hse]
      exact ih cs (max ce e) M
        (max_le hce (hend (s, e) (List.mem_cons_self _ _)))
        (fun q hq => hend q (List.mem_cons_of_mem _ hq))
        (fun q hq => hstart q (List.mem_cons_of_mem _ hq))
        hpw.2
    · simp only [mergeLoop, if_neg hse, List.map_cons, List.sum_cons]
      have hrec := ih s e M
        (hend (s, e) (List.mem_cons_self _ _))
        (fun q hq => hend q (List.mem_cons_of_mem _ hq))
        (fun q hq => hpw.1 q hq)
        hpw.2
      omega

/-- C9: on pairs with `start ≤ end`, `extract_num_years` is non-negative and
at most `max end − min start`; the empty list yields 0. -/
theorem spec_C9 :
    extract_num_years [] = 0
    ∧ ∀ years : List (Int × Int), (∀ p ∈ years, p.1 ≤ p.2) →
        0 ≤ extract_num_years years
        ∧ (years ≠ [] → extract_num_years years ≤ maxEndOf years - minStartOf years) := by
  refine ⟨rfl, fun years hp => ?_⟩
  have hperm := List.perm_insertionSort lexLe years
  cases hs : List.insertionSort lexLe years with
  | nil =>
    have hy : years = [] := by
      rw [hs] at hperm
      exact hperm.symm.eq_nil
    constructor
    · simp [extract_num_years, hs]
    · intro hne
      exact absurd hy hne
  | cons hd tl =>
    obtain ⟨s0, e0⟩ := hd
    have hd_mem : (s0, e0) ∈ years := hperm.mem_iff.mp (by rw [hs]; exact List.mem_cons_self _ _)
    have htl_mem : ∀ p ∈ tl, p ∈ years := fun p hp' =>
      hperm.mem_iff.mp (by rw [hs]; exact List.mem_cons_of_mem _ hp')
    have hnum : extract_num_years years = ((mergeLoop s0 e0 tl).map (fun p => p.2 - p.1)).sum := by
      simp [extract_num_years, hs]
    have hsorted := List.sorted_insertionSort lexLe years
    rw [hs] at hsorted
    rw [List.sorted_cons] at hsorted
    constructor
    · rw [hnum]
      exact mergeLoop_nonneg tl s0 e0 (hp (s0, e0) hd_mem) (fun q hq => hp q (htl_mem q hq))
    · intro _
      rw [hnum]
      have hb := mergeLoop_le tl s0 e0 (maxEndOf years)
        (le_maxEndOf years (s0, e0) hd_mem)
        (fun q hq => le_maxEndOf years q (htl_mem q hq))
        (fun q hq => lexLe_imp (hsorted.1 q hq))
        (List.Pairwise.imp lexLe_imp hsorted.2)
      have hmin := minStartOf_le years (s0, e0) hd_mem
      omega

/-- C9 witness: the bound at the two concrete spec ranges. -/
theorem spec_C9_witness :
    0 ≤ extract_num_years [((2015:Int), (2018:Int)), (2019, 2021)]
    ∧ extract_num_years [((2015:Int), (2018:Int)), (2019, 2021)]
        ≤ maxEndOf [((2015:Int), (2018:Int)), (2019, 2021)]
          - minStartOf [((2015:Int), (2018:Int)), (2019, 2021)] :=
  ⟨(spec_C9.2 [((2015:Int), (2018:Int)), (2019, 2021)] (by decide)).1,
   (spec_C9.2 [((2015:Int), (2018:Int)), (2019, 2021)] (by decide)).2 (by decide)⟩

/-! ### Toward C10: properties of the whole-word substitution -/

/-- Lower-case characters are letters. -/
theorem isAlpha_of_isLower {a : Char} (h : a.isLower = true) : a.isAlpha = true := by
  simp [Char.isAlpha, h]

/-- Letters are word characters. -/
theorem isWordChar_of_isAlpha {a : Char} (h : a.isAlpha = true) : isWordChar a = true := by
  simp [isWordChar, Char.isAlphanum, h]

/-- A character whose lower-casing is a lower-case letter is itself a letter. -/
theorem isAlpha_of_lowerChar_eq {d a : Char} (hl : a.isLower = true) (h : lowerChar d = a) :
    d.isAlpha = true := by
  unfold lowerChar at h
  by_cases hu : d.isUpper = true
  · simp [Char.isAlpha, hu]
  · rw [if_neg hu] at h
    subst h
    exact isAlpha_of_isLower hl

/-- A character whose lower-casing is a lower-case letter is a word character. -/
theorem isWordChar_of_lowerChar_eq {d a : Char} (hl : a.isLower = true) (h : lowerChar d = a) :
    isWordChar d = true :=
  isWordChar_of_isAlpha (isAlpha_of_lowerChar_eq hl h)

/-- A non-word character cannot case-fold onto a lower-case letter. -/
theorem lowerChar_ne_of_not_word {d a : Char} (hl : a.isLower = true)
    (h : isWordChar d = false) : lowerChar d ≠ a := by
  intro he
  rw [isWordChar_of_lowerChar_eq hl he] at h
  cases h

/-- Whitespace characters are not word characters. -/
theorem not_word_of_space {d : Char} (h : pyIsSpace d = true) : isWordChar d = false := by
  simp only [pyIsSpace, Bool.or_eq_true, decide_eq_true_eq] at h
  rcases h with ((((h | h) | h) | h) | h) | h <;> subst h <;> decide

/-- Letters are not whitespace. -/
theorem not_space_of_alpha {d : Char} (h : d.isAlpha = true) : pyIsSpace d = false := by
  by_cases hs : pyIsSpace d = true
  · simp only [pyIsSpace, Bool.or_eq_true, decide_eq_true_eq] at hs
    rcases hs with ((((hs | hs) | hs) | hs) | hs) | hs <;> subst hs <;> cases h
  · simp at hs
    exact hs

/-- A keyword never starts with the space character. -/
theorem lowerChar_space_ne {a : Char} (hl : a.isLower = true) : lowerChar ' ' ≠ a := by
  intro he
  have : lowerChar ' ' = ' ' := by decide
  rw [this] at he
  subst he
  cases hl

/-- Skipping with flag `false` is dropping. -/
theorem subWordAux_false_drop (w : List Char) :
    ∀ (l : List Char) (k : Nat), subWordAux w k false l = subWordAux w 0 false (l.drop k) := by
  intro l
  induction l with
  | nil => intro k; cases k <;> rfl
  | cons c cs ih =>
    intro k
    cases k with
    | zero => rfl
    | succ k' =>
      show subWordAux w k' false cs = _
      rw [ih k']
      rfl

/-- The single-step recursion of the substitution scanner, in jump form. -/
theorem subWord_cons (w : List Char) (b : Bool) (c : Char) (cs : List Char) :
    subWordAux w 0 b (c :: cs)
      = if b && wordMatchAt w (c :: cs)
        then ' ' :: subWordAux w 0 false (cs.drop (w.length - 1))
        else c :: subWordAux w 0 (!isWordChar c) cs := by
  show (if b && wordMatchAt w (c :: cs)
        then ' ' :: subWordAux w (w.length - 1) false cs
        else c :: subWordAux w 0 (!isWordChar c) cs) = _
  rw [subWordAux_false_drop]

/-- Occurrence checking is monotone in the boundary flag. -/
theorem hasOcc_false_mono (w : List Char) (l : List Char) (b : Bool)
    (h : hasOcc w b l = false) : hasOcc w false l = false := by
  cases l with
  | nil => rfl
  | cons c cs =>
    simp only [hasOcc, Bool.or_eq_false_iff] at h
    simp only [hasOcc, Bool.false_and, Bool.false_or]
    exact h.2

/-- No occurrence in a list means none in any suffix (with open context). -/
theorem hasOcc_drop_false (w : List Char) :
    ∀ (l : List Char) (k : Nat) (b : Bool), hasOcc w b l = false →
      hasOcc w false (l.drop k) = false := by
  intro l
  induction l with
  | nil => intro k b _; rw [List.drop_nil]; rfl
  | cons c cs ih =>
    intro k b h
    cases k with
    | zero => exact hasOcc_false_mono w _ b h
    | succ k' =>
      simp only [hasOcc, Bool.or_eq_false_iff] at h
      exact ih k' _ h.2

/-- When the head is a boundary, the incoming context flag is irrelevant. -/
theorem hasOcc_true_eq_false (w : List Char) (hw : KW w) :
    ∀ l : List Char, afterB l = true → hasOcc w true l = hasOcc w false l := by
  intro l hl
  obtain ⟨hne, hlow⟩ := hw
  cases l with
  | nil => rfl
  | cons c cs =>
    cases w with
    | nil => exact absurd rfl hne
    | cons a as =>
      have ha : a.isLower = true := hlow a (List.mem_cons_self _ _)
      have hcw : isWordChar c = false := by simpa [afterB] using hl
      have hca : lowerChar c ≠ a := lowerChar_ne_of_not_word ha hcw
      simp [hasOcc, wordMatchAt, ciStarts, hca]

/-- With a closed boundary flag the scanner copies the head character. -/
theorem subWord_false_cons (w : List Char) (c : Char) (cs : List Char) :
    subWordAux w 0 false (c :: cs) = c :: subWordAux w 0 (!isWordChar c) cs :=
  rfl

/-- Scanning with a closed boundary cannot create a whole-word match where the
input had none: a failed match at the current position still fails against the
scanner's output. -/
theorem scanFalse_nomatch (w : List Char) :
    ∀ u cs : List Char, (∀ x ∈ u, x.isLower = true) →
      (ciStarts u cs && afterB (cs.drop u.length)) = false →
      (ciStarts u (subWordAux w 0 false cs)
        && afterB ((subWordAux w 0 false cs).drop u.length)) = false := by
  intro u
  induction u with
  | nil =>
    intro cs _ h
    simp only [ciStarts, Bool.true_and, List.length_nil, List.drop_zero] at h ⊢
    cases cs with
    | nil => simp [afterB] at h
    | cons d ds =>
      have hd : isWordChar d = true := by
        revert h
        simp [afterB]
      rw [subWord_false_cons]
      simp [afterB, hd]
  | cons a u' ih =>
    intro cs hlow h
    cases cs with
    | nil => simp [subWordAux, ciStarts]
    | cons c cs' =>
      rw [subWord_false_cons]
      by_cases hca : lowerChar c = a
      · have ha : a.isLower = true := hlow a (List.mem_cons_self _ _)
        have hcw : isWordChar c = true := isWordChar_of_lowerChar_eq ha hca
        have hyp : (ciStarts u' cs' && afterB (cs'.drop u'.length)) = false := by
          simpa [ciStarts, hca, List.length_cons, List.drop_succ_cons] using h
        have hrec := ih cs' (fun x hx => hlow x (List.mem_cons_of_mem _ hx)) hyp
        simpa [ciStarts, hca, hcw, List.length_cons, List.drop_succ_cons] using hrec
      · simp [ciStarts, hca]

/-- A pass over occurrence-free input is the identity. -/
theorem subWord_id_of_no_occ (w : List Char) :
    ∀ (l : List Char) (b : Bool), hasOcc w b l = false → subWordAux w 0 b l = l := by
  intro l
  induction l with
  | nil => intro b _; rfl
  | cons c cs ih =>
    intro b h
    simp only [hasOcc, Bool.or_eq_false_iff] at h
    rw [subWord_cons, h.1]
    simp [ih _ h.2]

/-- A failed whole-word match keeps failing against the scanner output of the
tail (shared ending of the next two lemmas). -/
theorem wordMatchAt_out_false (w : List Char) {a : Char} {as : List Char}
    (ha : a.isLower = true) (hlow : ∀ x ∈ as, x.isLower = true) (c : Char) (cs : List Char)
    (hm : wordMatchAt (a :: as) (c :: cs) = false) :
    wordMatchAt (a :: as) (c :: subWordAux w 0 (!isWordChar c) cs) = false := by
  by_cases hca : lowerChar c = a
  · have hcw : isWordChar c = true := isWordChar_of_lowerChar_eq ha hca
    have hyp : (ciStarts as cs && afterB (cs.drop as.length)) = false := by
      simpa [wordMatchAt, ciStarts, hca, List.length_cons, List.drop_succ_cons] using hm
    have hs := scanFalse_nomatch w as cs hlow hyp
    rw [hcw]
    simpa [wordMatchAt, ciStarts, hca, List.length_cons, List.drop_succ_cons] using hs
  · simp [wordMatchAt, ciStarts, hca]

/-- After one substitution pass no whole-word occurrence of the keyword is
left (`n` is a fuel bound on the input length). -/
theorem subWord_no_occ (w : List Char) (hw : KW w) :
    ∀ (n : Nat) (l : List Char), l.length ≤ n → ∀ b q : Bool, (q = true → b = true) →
      hasOcc w q (subWordAux w 0 b l) = false := by
  obtain ⟨hne, hlow⟩ := hw
  cases w with
  | nil => exact absurd rfl hne
  | cons a as =>
  have ha : a.isLower = true := hlow a (List.mem_cons_self _ _)
  have has : ∀ x ∈ as, x.isLower = true := fun x hx => hlow x (List.mem_cons_of_mem _ hx)
  intro n
  induction n with
  | zero =>
    intro l hl b q _
    have : l = [] := List.eq_nil_of_length_eq_zero (Nat.le_zero.mp hl)
    subst this
    rfl
  | succ m ih =>
    intro l hl b q hq
    cases l with
    | nil => rfl
    | cons c cs =>
      have hcs : cs.length ≤ m := by
        simp only [List.length_cons] at hl
        omega
      by_cases hm : (b && wordMatchAt (a :: as) (c :: cs)) = true
      · rw [subWord_cons, if_pos hm]
        have hmm : wordMatchAt (a :: as) (c :: cs) = true := by
          simp only [Bool.and_eq_true] at hm
          exact hm.2
        have haft : afterB (cs.drop ((a :: as).length - 1)) = true := by
          simp only [wordMatchAt, Bool.and_eq_true] at hmm
          have h2 := hmm.2
          simpa [List.length_cons, List.drop_succ_cons] using h2
        have hsp : wordMatchAt (a :: as) (' ' :: subWordAux (a :: as) 0 false
            (cs.drop ((a :: as).length - 1))) = false := by
          simp [wordMatchAt, ciStarts, lowerChar_space_ne ha]
        simp only [hasOcc, hsp, Bool.and_false, Bool.false_or]
        have hwsp : (!isWordChar ' ') = true := by decide
        rw [hwsp]
        cases hr : cs.drop ((a :: as).length - 1) with
        | nil => rfl
        | cons r rs =>
          have hrw : isWordChar r = false := by
            rw [hr] at haft
            revert haft
            simp [afterB]
          rw [subWord_false_cons, hrw]
          have hrs : rs.length ≤ m := by
            have h1 : (cs.drop ((a :: as).length - 1)).length ≤ cs.length := by
              rw [List.length_drop]
              omega
            rw [hr] at h1
            simp only [List.length_cons] at h1
            omega
          have hmr : wordMatchAt (a :: as) (r :: subWordAux (a :: as) 0 true rs) = false := by
            simp [wordMatchAt, ciStarts, lowerChar_ne_of_not_word ha hrw]
          simp only [Bool.not_false, hasOcc, hmr, Bool.and_false, Bool.false_or, hrw]
          exact ih rs hrs true true (fun _ => rfl)
      · rw [subWord_cons, if_neg hm]
        simp only [hasOcc]
        have h2 := ih cs hcs (!isWordChar c) (!isWordChar c) (fun h => h)
        rw [h2, Bool.or_false]
        cases q with
        | false => rfl
        | true =>
          have hb : b = true := hq rfl
          subst hb
          have hmf : wordMatchAt (a :: as) (c :: cs) = false := by
            revert hm
            simp
          rw [Bool.true_and]
          exact wordMatchAt_out_false _ ha has c cs hmf

/-- A pass for one keyword cannot create a whole-word occurrence of another
(or the same) keyword. -/
theorem subWord_keep_no_occ (v : List Char) (hv : KW v) :
    ∀ (n : Nat) (l : List Char), l.length ≤ n → ∀ w : List Char, w ≠ [] → ∀ b q : Bool,
      hasOcc v q l = false → hasOcc v q (subWordAux w 0 b l) = false := by
  obtain ⟨hvne, hvlow⟩ := hv
  cases v with
  | nil => exact absurd rfl hvne
  | cons a as =>
  have ha : a.isLower = true := hvlow a (List.mem_cons_self _ _)
  have has : ∀ x ∈ as, x.isLower = true := fun x hx => hvlow x (List.mem_cons_of_mem _ hx)
  intro n
  induction n with
  | zero =>
    intro l hl w _ b q _
    have : l = [] := List.eq_nil_of_length_eq_zero (Nat.le_zero.mp hl)
    subst this
    rfl
  | succ m ih =>
    intro l hl w hwne b q h
    cases l with
    | nil => rfl
    | cons c cs =>
      have hcs : cs.length ≤ m := by
        simp only [List.length_cons] at hl
        omega
      simp only [hasOcc, Bool.or_eq_false_iff] at h
      obtain ⟨hq1, hq2⟩ := h
      by_cases hm : (b && wordMatchAt w (c :: cs)) = true
      · rw [subWord_cons, if_pos hm]
        have hmm : wordMatchAt w (c :: cs) = true := by
          simp only [Bool.and_eq_true] at hm
          exact hm.2
        have haft : afterB (cs.drop (w.length - 1)) = true := by
          simp only [wordMatchAt, Bool.and_eq_true] at hmm
          have h2 := hmm.2
          have hwl : w.length - 1 + 1 = w.length :=
            Nat.succ_pred_eq_of_pos (List.length_pos.mpr hwne)
          rw [← hwl] at h2
          simpa [List.drop_succ_cons] using h2
        have hsp : wordMatchAt (a :: as) (' ' :: subWordAux w 0 false
            (cs.drop (w.length - 1))) = false := by
          simp [wordMatchAt, ciStarts, lowerChar_space_ne ha]
        simp only [hasOcc, hsp, Bool.and_false, Bool.false_or]
        have hwsp : (!isWordChar ' ') = true := by decide
        rw [hwsp]
        have hrest : hasOcc (a :: as) true (cs.drop (w.length - 1)) = false := by
          rw [hasOcc_true_eq_false (a :: as) ⟨List.cons_ne_nil a as, hvlow⟩ _ haft]
          exact hasOcc_drop_false (a :: as) cs _ _ hq2
        have hrl : (cs.drop (w.length - 1)).length ≤ m := by
          rw [List.length_drop]
          omega
        exact ih (cs.drop (w.length - 1)) hrl w hwne false true hrest
      · rw [subWord_cons, if_neg hm]
        simp only [hasOcc]
        have h2 := ih cs hcs w hwne (!isWordChar c) (!isWordChar c) hq2
        rw [h2, Bool.or_false]
        cases q with
        | false => rfl
        | true =>
          have hmf : wordMatchAt (a :: as) (c :: cs) = false := by
            revert hq1
            simp
          rw [Bool.true_and]
          exact wordMatchAt_out_false _ ha has c cs hmf

/-- Later keyword passes keep a keyword absent. -/
theorem foldl_keep_no_occ (v : List Char) (hv : KW v) :
    ∀ (ws : List String) (l : List Char), (∀ u ∈ ws, u.data ≠ []) →
      hasOcc v true l = false →
      hasOcc v true (ws.foldl (fun acc w => subWord w.data acc) l) = false := by
  intro ws
  induction ws with
  | nil => intro l _ h; exact h
  | cons w ws ih =>
    intro l hne h
    simp only [List.foldl_cons]
    exact ih _ (fun u hu => hne u (List.mem_cons_of_mem _ hu))
      (subWord_keep_no_occ v hv l.length l le_rfl w.data
        (hne w (List.mem_cons_self _ _)) true true h)

/-- After the whole keyword fold, no listed keyword occurs as a whole word. -/
theorem foldl_no_occ :
    ∀ (ws : List String) (l : List Char) (v : String), v ∈ ws → (∀ u ∈ ws, KW u.data) →
      hasOcc v.data true (ws.foldl (fun acc w => subWord w.data acc) l) = false := by
  intro ws
  induction ws with
  | nil => intro l v hv _; cases hv
  | cons w ws ih =>
    intro l v hv hkw
    simp only [List.foldl_cons]
    rcases List.mem_cons.mp hv with h | h
    · subst h
      have h0 : hasOcc v.data true (subWord v.data l) = false :=
        subWord_no_occ v.data (hkw v (List.mem_cons_self _ _)) l.length l le_rfl
          true true (fun _ => rfl)
      exact foldl_keep_no_occ v.data (hkw v (List.mem_cons_self _ _)) ws _
        (fun u hu => (hkw u (List.mem_cons_of_mem _ hu)).1) h0
    · exact ih _ v h (fun u hu => hkw u (List.mem_cons_of_mem _ hu))

/-- The keyword fold is the identity on keyword-free text. -/
theorem foldl_id (ws : List String) : ∀ l, (∀ w ∈ ws, hasOcc w.data true l = false) →
    ws.foldl (fun acc w => subWord w.data acc) l = l := by
  induction ws with
  | nil => intro l _; rfl
  | cons w ws ih =>
    intro l h
    simp only [List.foldl_cons]
    rw [show subWord w.data l = l from
      subWord_id_of_no_occ w.data l true (h w (List.mem_cons_self _ _))]
    exact ih l (fun u hu => h u (List.mem_cons_of_mem _ hu))

/-- Whitespace collapsing cannot create a match where the input had none. -/
theorem scanCollapse_nomatch :
    ∀ u cs : List Char, (∀ x ∈ u, x.isLower = true) →
      (ciStarts u cs && afterB (cs.drop u.length)) = false →
      (ciStarts u (collapseWsAux false cs)
        && afterB ((collapseWsAux false cs).drop u.length)) = false := by
  intro u
  induction u with
  | nil =>
    intro cs _ h
    simp only [ciStarts, Bool.true_and, List.length_nil, List.drop_zero] at h ⊢
    cases cs with
    | nil => simp [afterB] at h
    | cons d ds =>
      have hd : isWordChar d = true := by
        revert h
        simp [afterB]
      have hds : pyIsSpace d = false := by
        by_cases hs : pyIsSpace d = true
        · rw [not_word_of_space hs] at hd
          cases hd
        · simpa using hs
      simp [collapseWsAux, hds, afterB, hd]
  | cons a u' ih =>
    intro cs hlow h
    cases cs with
    | nil => simp [collapseWsAux, ciStarts]
    | cons c cs' =>
      by_cases hca : lowerChar c = a
      · have ha : a.isLower = true := hlow a (List.mem_cons_self _ _)
        have hcal : c.isAlpha = true := isAlpha_of_lowerChar_eq ha hca
        have hcs : pyIsSpace c = false := not_space_of_alpha hcal
        have hyp : (ciStarts u' cs' && afterB (cs'.drop u'.length)) = false := by
          simpa [ciStarts, hca, List.length_cons, List.drop_succ_cons] using h
        have hrec := ih cs' (fun x hx => hlow x (List.mem_cons_of_mem _ hx)) hyp
        simp only [collapseWsAux, hcs, Bool.false_eq_true, if_false]
        simpa [ciStarts, hca, List.length_cons, List.drop_succ_cons] using hrec
      · by_cases hcs : pyIsSpace c = true
        · have ha : a.isLower = true := hlow a (List.mem_cons_self _ _)
          simp only [collapseWsAux, hcs, if_true]
          simp [ciStarts, lowerChar_space_ne ha]
        · simp only [collapseWsAux, hcs, Bool.false_eq_true, if_false]
          simp [ciStarts, hca]

/-- Shared ending for the collapse-preservation lemma. -/
theorem wordMatchAt_collapse_false {a : Char} {as : List Char}
    (hlow : ∀ x ∈ as, x.isLower = true) (c : Char) (cs : List Char)
    (hm : wordMatchAt (a :: as) (c :: cs) = false) :
    wordMatchAt (a :: as) (c :: collapseWsAux false cs) = false := by
  by_cases hca : lowerChar c = a
  · have hyp : (ciStarts as cs && afterB (cs.drop as.length)) = false := by
      simpa [wordMatchAt, ciStarts, hca, List.length_cons, List.drop_succ_cons] using hm
    have hs := scanCollapse_nomatch as cs hlow hyp
    simpa [wordMatchAt, ciStarts, hca, List.length_cons, List.drop_succ_cons] using hs
  · simp [wordMatchAt, ciStarts, hca]

/-- Whitespace collapsing preserves the absence of a keyword. -/
theorem collapse_keep_no_occ (v : List Char) (hv : KW v) :
    ∀ (l : List Char) (r q : Bool), hasOcc v q l = false →
      hasOcc v q (collapseWsAux r l) = false := by
  obtain ⟨hvne, hvlow⟩ := hv
  cases v with
  | nil => exact absurd rfl hvne
  | cons a as =>
  have ha : a.isLower = true := hvlow a (List.mem_cons_self _ _)
  have has : ∀ x ∈ as, x.isLower = true := fun x hx => hvlow x (List.mem_cons_of_mem _ hx)
  intro l
  induction l with
  | nil => intro r q h; exact h
  | cons c cs ih =>
    intro r q h
    simp only [hasOcc, Bool.or_eq_false_iff] at h
    obtain ⟨h1, h2⟩ := h
    by_cases hcs : pyIsSpace c = true
    · have hcw : isWordChar c = false := not_word_of_space hcs
      have h2' : hasOcc (a :: as) true cs = false := by
        rw [hcw] at h2
        simpa using h2
      cases r with
      | true =>
        simp only [collapseWsAux, hcs, if_true]
        have hq : hasOcc (a :: as) q cs = false := by
          cases q
          · exact hasOcc_false_mono _ cs true h2'
          · exact h2'
        exact ih true q hq
      | false =>
        simp only [collapseWsAux, hcs, if_true]
        have hsp : wordMatchAt (a :: as) (' ' :: collapseWsAux true cs) = false := by
          simp [wordMatchAt, ciStarts, lowerChar_space_ne ha]
        simp only [hasOcc, hsp, Bool.and_false, Bool.false_or]
        have hwsp : (!isWordChar ' ') = true := by decide
        rw [hwsp]
        exact ih true true h2'
    · simp only [collapseWsAux, hcs, Bool.false_eq_true, if_false]
      simp only [hasOcc]
      rw [ih false (!isWordChar c) h2, Bool.or_false]
      cases q with
      | false => rfl
      | true =>
        have hmf : wordMatchAt (a :: as) (c :: cs) = false := by
          revert h1
          simp
        rw [Bool.true_and]
        exact wordMatchAt_collapse_false has c cs hmf

/-- Dropping leading whitespace preserves the absence of a keyword. -/
theorem dropL_keep_no_occ (v : List Char) :
    ∀ l : List Char, hasOcc v true l = false →
      hasOcc v true (l.dropWhile pyIsSpace) = false := by
  intro l
  induction l with
  | nil => intro h; exact h
  | cons c cs ih =>
    intro h
    simp only [hasOcc, Bool.or_eq_false_iff] at h
    by_cases hcs : pyIsSpace c = true
    · rw [List.dropWhile_cons]
      rw [hcs]
      simp only [if_true]
      have hcw : isWordChar c = false := not_word_of_space hcs
      have h2 : hasOcc v true cs = false := by
        have := h.2
        rw [hcw] at this
        simpa using this
      exact ih h2
    · rw [List.dropWhile_cons]
      simp only [hcs, Bool.false_eq_true, if_false]
      simp only [hasOcc, h.1, h.2, Bool.or_false]

/-- Case-insensitive prefix matching survives appending on the right. -/
theorem ciStarts_append : ∀ u l S : List Char, ciStarts u l = true → ciStarts u (l ++ S) = true := by
  intro u
  induction u with
  | nil => intro l S _; rfl
  | cons a u' ih =>
    intro l S h
    cases l with
    | nil => cases h
    | cons c cs =>
      simp only [ciStarts, Bool.and_eq_true] at h ⊢
      exact ⟨h.1, ih cs S h.2⟩

/-- A successful case-insensitive prefix match needs enough input. -/
theorem ciStarts_length_le : ∀ u l : List Char, ciStarts u l = true → u.length ≤ l.length := by
  intro u
  induction u with
  | nil => intro l _; simp
  | cons a u' ih =>
    intro l h
    cases l with
    | nil => cases h
    | cons c cs =>
      simp only [ciStarts, Bool.and_eq_true] at h
      simp only [List.length_cons]
      exact Nat.succ_le_succ (ih cs h.2)

/-- A whole-word match survives appending trailing whitespace. -/
theorem wordMatchAt_append_spaces (v l S : List Char)
    (hS : ∀ x ∈ S, pyIsSpace x = true) (h : wordMatchAt v l = true) :
    wordMatchAt v (l ++ S) = true := by
  simp only [wordMatchAt, Bool.and_eq_true] at h ⊢
  obtain ⟨h1, h2⟩ := h
  refine ⟨ciStarts_append _ _ _ h1, ?_⟩
  have hlen : v.length ≤ l.length := ciStarts_length_le _ _ h1
  rw [List.drop_append_of_le_length hlen]
  cases hd : l.drop v.length with
  | nil =>
    cases S with
    | nil => rfl
    | cons s ss => simp [afterB, not_word_of_space (hS s (List.mem_cons_self _ _))]
  | cons d ds =>
    rw [hd] at h2
    simpa [afterB] using h2

/-- A whole-word occurrence survives appending trailing whitespace. -/
theorem hasOcc_append_spaces (v : List Char) :
    ∀ (P S : List Char) (b : Bool), (∀ x ∈ S, pyIsSpace x = true) →
      hasOcc v b P = true → hasOcc v b (P ++ S) = true := by
  intro P
  induction P with
  | nil =>
    intro S b _ h
    cases h
  | cons c cs ih =>
    intro S b hS h
    simp only [hasOcc, Bool.or_eq_true] at h
    simp only [List.cons_append, hasOcc, Bool.or_eq_true]
    rcases h with h | h
    · left
      simp only [Bool.and_eq_true] at h ⊢
      exact ⟨h.1, wordMatchAt_append_spaces v (c :: cs) S hS h.2⟩
    · right
      exact ih S _ hS h

/-- Every list splits as its trailing-whitespace strip plus whitespace. -/
theorem stripT_decomp (l : List Char) :
    ∃ S, l = (l.reverse.dropWhile pyIsSpace).reverse ++ S ∧ ∀ x ∈ S, pyIsSpace x = true := by
  refine ⟨(l.reverse.takeWhile pyIsSpace).reverse, ?_, ?_⟩
  · calc l = l.reverse.reverse := (List.reverse_reverse l).symm
      _ = (l.reverse.takeWhile pyIsSpace ++ l.reverse.dropWhile pyIsSpace).reverse := by
          rw [List.takeWhile_append_dropWhile]
      _ = (l.reverse.dropWhile pyIsSpace).reverse ++ (l.reverse.takeWhile pyIsSpace).reverse := by
          rw [List.reverse_append]
  · intro x hx
    exact List.mem_takeWhile_imp (List.mem_reverse.mp hx)

/-- Stripping trailing whitespace preserves the absence of a keyword. -/
theorem stripT_keep_no_occ (v : List Char) (l : List Char)
    (h : hasOcc v true l = false) :
    hasOcc v true ((l.reverse.dropWhile pyIsSpace).reverse) = false := by
  obtain ⟨S, hdec, hS⟩ := stripT_decomp l
  cases hocc : hasOcc v true ((l.reverse.dropWhile pyIsSpace).reverse) with
  | false => rfl
  | true =>
    have hx := hasOcc_append_spaces v _ S true hS hocc
    rw [← hdec, h] at hx
    cases hx

/-- `cleanSpaces` preserves the absence of a keyword. -/
theorem clean_keep_no_occ (v : List Char) (hv : KW v) (l : List Char)
    (h : hasOcc v true l = false) : hasOcc v true (cleanSpaces l) = false := by
  unfold cleanSpaces stripList collapseWs
  exact stripT_keep_no_occ v _ (dropL_keep_no_occ v _ (collapse_keep_no_occ v hv l false true h))

/-- The collapse scanner always produces well-collapsed whitespace, and inside
a run its output starts with a non-space. -/
theorem collapse_spacedOk :
    ∀ (l : List Char) (r : Bool), spacedOk (collapseWsAux r l) = true
      ∧ (r = true → headNS (collapseWsAux r l) = true) := by
  intro l
  induction l with
  | nil => intro r; exact ⟨rfl, fun _ => rfl⟩
  | cons c cs ih =>
    intro r
    by_cases hcs : pyIsSpace c = true
    · cases r with
      | true =>
        simpa [collapseWsAux, hcs] using ih true
      | false =>
        have h := ih true
        constructor
        · simp [collapseWsAux, hcs, spacedOk, h.1, h.2 rfl]
        · intro hr
          cases hr
    · have h := ih false
      constructor
      · simp [collapseWsAux, hcs, spacedOk, h.1]
      · intro _
        simp [collapseWsAux, hcs, headNS]

/-- Well-collapsedness is inherited by the tail. -/
theorem spacedOk_tail {c : Char} {cs : List Char} (h : spacedOk (c :: cs) = true) :
    spacedOk cs = true := by
  simp only [spacedOk, Bool.and_eq_true] at h
  exact h.2

/-- Well-collapsedness is inherited by `dropWhile`. -/
theorem spacedOk_dropWhile (l : List Char) (h : spacedOk l = true) :
    spacedOk (l.dropWhile pyIsSpace) = true := by
  induction l with
  | nil => exact h
  | cons c cs ih =>
    rw [List.dropWhile_cons]
    by_cases hcs : pyIsSpace c = true
    · simp only [hcs, if_true]
      exact ih (spacedOk_tail h)
    · simp only [hcs, Bool.false_eq_true, if_false]
      exact h

/-- Well-collapsedness is inherited by prefixes. -/
theorem spacedOk_append_left : ∀ P S : List Char, spacedOk (P ++ S) = true →
    spacedOk P = true := by
  intro P
  induction P with
  | nil => intro S _; rfl
  | cons c cs ih =>
    intro S h
    simp only [List.cons_append, spacedOk, Bool.and_eq_true] at h ⊢
    obtain ⟨h1, h2⟩ := h
    refine ⟨?_, ih S h2⟩
    by_cases hcs : pyIsSpace c = true
    · rw [if_pos hcs] at h1 ⊢
      simp only [Bool.and_eq_true] at h1 ⊢
      refine ⟨h1.1, ?_⟩
      cases cs with
      | nil => rfl
      | cons d ds => simpa [headNS] using h1.2
    · rw [if_neg hcs]

/-- Stripping keeps the whitespace shape well-collapsed. -/
theorem spacedOk_stripList (l : List Char) (h : spacedOk l = true) :
    spacedOk (stripList l) = true := by
  have h1 := spacedOk_dropWhile l h
  obtain ⟨S, hdec, _⟩ := stripT_decomp (l.dropWhile pyIsSpace)
  apply spacedOk_append_left _ S
  unfold stripList
  rw [← hdec]
  exact h1

/-- Collapsing is the identity on well-collapsed text. -/
theorem collapse_id_of_spacedOk : ∀ l : List Char, spacedOk l = true →
    collapseWsAux false l = l ∧ (headNS l = true → collapseWsAux true l = l) := by
  intro l
  induction l with
  | nil => intro _; exact ⟨rfl, fun _ => rfl⟩
  | cons c cs ih =>
    intro h
    have ihcs := ih (spacedOk_tail h)
    by_cases hcs : pyIsSpace c = true
    · have hc : c = ' ' ∧ headNS cs = true := by
        simp only [spacedOk, if_pos hcs, Bool.and_eq_true, decide_eq_true_eq] at h
        exact ⟨h.1.1, h.1.2⟩
      obtain ⟨hc1, hc2⟩ := hc
      subst hc1
      constructor
      · simp [collapseWsAux, hcs, ihcs.2 hc2]
      · intro hh
        rw [headNS, hcs] at hh
        cases hh
    · constructor
      · simp [collapseWsAux, hcs, ihcs.1]
      · intro _
        simp [collapseWsAux, hcs, ihcs.1]

/-- The head of a whitespace-stripped list is not whitespace. -/
theorem headNS_dropWhile : ∀ l : List Char, headNS (l.dropWhile pyIsSpace) = true := by
  intro l
  induction l with
  | nil => rfl
  | cons c cs ih =>
    rw [List.dropWhile_cons]
    by_cases h : pyIsSpace c = true
    · simp only [h, if_true]
      exact ih
    · simp [headNS, h]

/-- Lists already starting with a non-space are fixed by the leading strip. -/
theorem dropWhile_of_headNS (l : List Char) (h : headNS l = true) :
    l.dropWhile pyIsSpace = l := by
  cases l with
  | nil => rfl
  | cons c cs =>
    have hc : pyIsSpace c = false := by
      simpa [headNS] using h
    rw [List.dropWhile_cons]
    simp [hc]

/-- Leading strip is idempotent. -/
theorem dropL_idem (l : List Char) :
    (l.dropWhile pyIsSpace).dropWhile pyIsSpace = l.dropWhile pyIsSpace :=
  dropWhile_of_headNS _ (headNS_dropWhile l)

/-- The trailing strip keeps a non-space head. -/
theorem headNS_dropT (l : List Char) (h : headNS l = true) :
    headNS ((l.reverse.dropWhile pyIsSpace).reverse) = true := by
  obtain ⟨S, hdec, _⟩ := stripT_decomp l
  cases hP : (l.reverse.dropWhile pyIsSpace).reverse with
  | nil => rfl
  | cons d ds =>
    rw [hP] at hdec
    rw [hdec] at h
    simpa [headNS] using h

/-- Stripping is idempotent. -/
theorem strip_idem (l : List Char) : stripList (stripList l) = stripList l := by
  unfold stripList
  rw [dropWhile_of_headNS ((((l.dropWhile pyIsSpace).reverse.dropWhile pyIsSpace).reverse))
    (headNS_dropT _ (headNS_dropWhile l))]
  rw [List.reverse_reverse, dropL_idem]

/-- `cleanSpaces` is idempotent. -/
theorem clean_idem (l : List Char) : cleanSpaces (cleanSpaces l) = cleanSpaces l := by
  unfold cleanSpaces
  have h1 : spacedOk (collapseWs l) = true := (collapse_spacedOk l false).1
  have h2 : spacedOk (stripList (collapseWs l)) = true := spacedOk_stripList _ h1
  rw [show collapseWs (stripList (collapseWs l)) = stripList (collapseWs l) from
    (collapse_id_of_spacedOk _ h2).1]
  exact strip_idem _

/-- C10: `remove_sensitive_info` is idempotent, and its output never contains
any of the nine bias keywords as a whole word (case-insensitively). -/
theorem spec_C10 (s : String) :
    remove_sensitive_info (remove_sensitive_info s) = remove_sensitive_info s
    ∧ ∀ w ∈ biasKeywords, hasOcc w.data true (remove_sensitive_info s).data = false := by
  have hkw : ∀ u ∈ biasKeywords, KW u.data := by
    intro u hu
    simp only [biasKeywords, List.mem_cons, List.not_mem_nil, or_false] at hu
    rcases hu with rfl | rfl | rfl | rfl | rfl | rfl | rfl | rfl | rfl <;>
      exact ⟨by decide, by decide⟩
  by_cases h : s.data = []
  · have h1 : remove_sensitive_info s = "" := by
      simp [remove_sensitive_info, h]
    rw [h1]
    exact ⟨rfl, fun w _ => rfl⟩
  · have hrs : remove_sensitive_info s
        = ⟨cleanSpaces (biasKeywords.foldl (fun acc w => subWord w.data acc) s.data)⟩ := by
      unfold remove_sensitive_info
      rw [if_neg h]
    have hnocc : ∀ w ∈ biasKeywords,
        hasOcc w.data true (cleanSpaces (biasKeywords.foldl
          (fun acc w => subWord w.data acc) s.data)) = false := by
      intro w hw
      apply clean_keep_no_occ w.data (hkw w hw)
      exact foldl_no_occ biasKeywords s.data w hw hkw
    constructor
    · rw [hrs]
      by_cases hye : cleanSpaces (biasKeywords.foldl (fun acc w => subWord w.data acc) s.data) = []
      · rw [hye]
        rfl
      · unfold remove_sensitive_info
        rw [if_neg (by simpa using hye)]
        show String.mk _ = String.mk _
        rw [show (String.mk (cleanSpaces (biasKeywords.foldl
            (fun acc w => subWord w.data acc) s.data))).data
          = cleanSpaces (biasKeywords.foldl (fun acc w => subWord w.data acc) s.data) from rfl]
        rw [foldl_id biasKeywords _ hnocc]
        rw [clean_idem]
    · rw [hrs]
      intro w hw
      exact hnocc w hw

/-- C10 witness: idempotence and keyword-freedom at a concrete input. -/
theorem spec_C10_witness :
    remove_sensitive_info (remove_sensitive_info "A Married male engineer")
        = remove_sensitive_info "A Married male engineer"
    ∧ hasOcc "male".data true (remove_sensitive_info "A Married male engineer").data = false :=
  ⟨(spec_C10 "A Married male engineer").1,
   (spec_C10 "A Married male engineer").2 "male" (by decide)⟩
